import Mathlib

/-!
Verification development for the UV-Vis plate-reader analysis scripts
(files: Data Analysis/Curve Fitting & Machine Learning.py and
Data Analysis/Background Correction for PRD Reader.py).

Spectra are embedded as lists of exact rationals; pandas DataFrames as
lists of typed columns; the bounded scipy optimizer as the exact
minimizer of the residual sum of squares over the nonnegative quadrant.
-/

namespace OTUV

/-- Dot product of two spectra, truncating to the shorter length
(NumPy elementwise product followed by np.sum; all call sites use
equal-length arrays, enforced by hypotheses in the theorems). -/
def dot (a b : List ℚ) : ℚ := (List.zipWith (· * ·) a b).sum

/-- Sum of squares of the entries of a list: models np.sum(x ** 2). -/
def sumSquares (l : List ℚ) : ℚ := (l.map (fun t => t ^ 2)).sum

/-- The arithmetic mean of a list: models np.mean (division by zero for
the empty list is excluded by hypotheses where it matters). -/
def listMean (l : List ℚ) : ℚ := l.sum / (l.length : ℚ)

/-- The linear combination c1 * styrene + c2 * polystyrene of the two
reference spectra: models the expression
c_styrene * styrene_spectrum + c_polystyrene * polystyrene_spectrum. -/
def combinedSpectrum (c1 c2 : ℚ) (s p : List ℚ) : List ℚ :=
  List.zipWith (fun si pi => c1 * si + c2 * pi) s p

/-- The objective of the deconvolution: the function residuals(coeffs)
of least_squares_deconvolution and fit_spectra, i.e.
np.sum((sample_spectrum - combined_spectrum) ** 2). -/
def residuals (y s p : List ℚ) (c1 c2 : ℚ) : ℚ :=
  sumSquares (List.zipWith (· - ·) y (combinedSpectrum c1 c2 s p))

/-- least_squares_deconvolution / fit_spectra: the source calls
scipy.optimize.minimize on the residuals with bounds
((0, None), (0, None)) and returns result.x, i.e. a minimizer of the
residual sum of squares over the nonnegative quadrant.  The embedding
computes that minimizer exactly: the unconstrained stationary point of
the quadratic objective when it is feasible, otherwise the better of
the two clamped single-component fits.  The theorem
least_squares_deconvolution_isMinimizer proves that the returned pair
minimizes the residuals over all nonnegative coefficient pairs. -/
def least_squares_deconvolution (y s p : List ℚ) : ℚ × ℚ :=
  let A := dot s s
  let B := dot s p
  let C := dot p p
  let D := dot y s
  let E := dot y p
  let det := A * C - B * B
  let u1 := (C * D - B * E) / det
  let u2 := (A * E - B * D) / det
  if det ≠ 0 ∧ 0 ≤ u1 ∧ 0 ≤ u2 then (u1, u2)
  else
    let e1 : ℚ × ℚ := (if A = 0 then 0 else max 0 (D / A), 0)
    let e2 : ℚ × ℚ := (0, if C = 0 then 0 else max 0 (E / C))
    if residuals y s p e1.1 e1.2 ≤ residuals y s p e2.1 e2.2 then e1 else e2

/-- fit_spectra (both files): dispatches to the deconvolution method,
which is least_squares_deconvolution at every call site. -/
def fit_spectra (sample s p : List ℚ) : ℚ × ℚ :=
  least_squares_deconvolution sample s p

/-- calculate_r_squared (both files): 1 - SS_res / SS_tot with
SS_res = np.sum((sample - fitted) ** 2) and
SS_tot = np.sum((sample - np.mean(sample)) ** 2).  The source performs
the division unconditionally; when SS_tot = 0 the float division by
zero yields no finite value (NaN or -inf in NumPy), embedded as none. -/
def calculate_r_squared (sample fitted : List ℚ) : Option ℚ :=
  let SS_res := sumSquares (List.zipWith (· - ·) sample fitted)
  let SS_tot := sumSquares (sample.map (fun v => v - listMean sample))
  if SS_tot = 0 then none else some (1 - SS_res / SS_tot)

/-- The residual objective expanded as a polynomial in the two
coefficients, with A = dot s s, B = dot s p, C = dot p p, D = dot y s,
E = dot y p, F = sumSquares y (proof artifact, see residuals_expand). -/
def fpoly (A B C D E F c1 c2 : ℚ) : ℚ :=
  F - 2 * D * c1 - 2 * E * c2 + A * c1 ^ 2 + 2 * B * c1 * c2 + C * c2 ^ 2

/-- A feasible global minimizer of the deconvolution objective: the
contract of the scipy.optimize.minimize call with nonnegativity bounds. -/
def IsDeconvMinimizer (y s p : List ℚ) (c : ℚ × ℚ) : Prop :=
  0 ≤ c.1 ∧ 0 ≤ c.2 ∧
    ∀ d1 d2 : ℚ, 0 ≤ d1 → 0 ≤ d2 → residuals y s p c.1 c.2 ≤ residuals y s p d1 d2

/-- A pandas column is either numeric (float cells) or non-numeric
(identifier strings); select_dtypes distinguishes exactly these two. -/
inductive ColData where
  | num : List ℚ → ColData
  | txt : List String → ColData
deriving DecidableEq

/-- Whether a column is selected by select_dtypes with include number. -/
def ColData.isNum : ColData → Bool
  | .num _ => true
  | .txt _ => false

/-- The numeric cells of a column (empty for a non-numeric column). -/
def ColData.numVals : ColData → List ℚ
  | .num vs => vs
  | .txt _ => []

/-- A DataFrame: ordered labelled columns over a shared default
integer row index. -/
structure DF where
  cols : List (String × ColData)
deriving DecidableEq

/-- The column labels in order: df.columns.tolist(). -/
def DF.names (df : DF) : List String := df.cols.map (·.1)

/-- The numeric values of the column labelled n, empty when absent:
positional rows with label-based column access, as pandas aligns.  -/
def DF.colNumVals (df : DF) (n : String) : List ℚ :=
  ((df.cols.find? (fun c => c.1 == n)).map (fun c => c.2.numVals)).getD []

/-- separate_columns (both files): numeric columns, non-numeric
columns, and the original column order. -/
def separate_columns (df : DF) : DF × DF × List String :=
  (⟨df.cols.filter (fun c => c.2.isNum)⟩,
   ⟨df.cols.filter (fun c => !c.2.isNum)⟩,
   df.cols.map (·.1))

/-- Elementwise difference of two numeric frames: models
numeric_cols_raw - numeric_cols_plate (and subtract_background, whose
fill_value=0 only matters for mismatched labels).  pandas aligns
columns by label and rows by the shared default RangeIndex, so each
column of the left frame is paired with the equally labelled column of
the right frame and subtracted positionally. -/
def dfSubNum (a b : DF) : DF :=
  ⟨a.cols.map (fun c =>
    (c.1, ColData.num (List.zipWith (· - ·) c.2.numVals (b.colNumVals c.1))))⟩

/-- subtract_background (Background Correction file): plate background
subtraction, a pandas subtract with fill_value=0. -/
def subtract_background (numeric_raw numeric_plate : DF) : DF :=
  dfSubNum numeric_raw numeric_plate

/-- Blank-row subtraction: take row blank_index of the frame and
subtract it from every row; models
df.subtract(df.iloc[blank_index], axis=1) in the Curve Fitting file
and subtract_blank_row (with blank_index = 0) in the Background
Correction file.  Column labels align with themselves, so every column
has its own row-blank value subtracted from each of its cells. -/
def subtractBlankRow (df : DF) (blank_index : ℕ) : DF :=
  ⟨df.cols.map (fun c =>
    (c.1, ColData.num (c.2.numVals.map (fun v => v - c.2.numVals.getD blank_index 0))))⟩

/-- subtract_blank_row (Background Correction file): subtract the
first row from the entire DataFrame. -/
def subtract_blank_row (df : DF) : DF := subtractBlankRow df 0

/-- recombine_data (Curve Fitting file): concat non-numeric then
numeric columns and reindex back to the original column order. -/
def recombine_data (numeric_data non_numeric_data : DF) (original_columns : List String) : DF :=
  let combined := non_numeric_data.cols ++ numeric_data.cols
  ⟨original_columns.filterMap (fun n => combined.find? (fun c => c.1 == n))⟩

/-- recombine_data (Background Correction file): the reindex to the
original column order is commented out there, so the result is simply
the non-numeric columns followed by the numeric columns. -/
def recombine_data_bc (numeric_data non_numeric_data : DF) : DF :=
  ⟨non_numeric_data.cols ++ numeric_data.cols⟩

/-- separate_subtract_and_recombine (Curve Fitting file): separate,
subtract the plate background and the blank row, recombine in the
original column order. -/
def separate_subtract_and_recombine (raw_df plate_data : DF) (blank_index : ℕ := 0) : DF :=
  let sepRaw := separate_columns raw_df
  let sepPlate := separate_columns plate_data
  let plate_corrected := dfSubNum sepRaw.1 sepPlate.1
  let blank_corrected := subtractBlankRow plate_corrected blank_index
  recombine_data blank_corrected sepRaw.2.1 sepRaw.2.2

/-- separate_subtract_and_recombine (Background Correction file):
separate, subtract plate background and blank row 0, recombine without
restoring the original column order. -/
def separate_subtract_and_recombine_bc (raw_df plate_data : DF) : DF :=
  let sepRaw := separate_columns raw_df
  let sepPlate := separate_columns plate_data
  let plate_background_removed := subtract_background sepRaw.1 sepPlate.1
  let blank_removed := subtract_blank_row plate_background_removed
  recombine_data_bc blank_removed sepRaw.2.1

/-- The column-wise effect of plate-background plus blank-row
correction on one numeric column (proof artifact: the composition of
dfSubNum and subtractBlankRow acts on each numeric column
independently, by label alignment). -/
def corrCol (plateNum : DF) (blank_index : ℕ) (c : String × ColData) : String × ColData :=
  let w := List.zipWith (· - ·) c.2.numVals (plateNum.colNumVals c.1)
  (c.1, ColData.num (w.map (fun v => v - w.getD blank_index 0)))

/-- The number of cells of a column. -/
def ColData.length : ColData → ℕ
  | .num vs => vs.length
  | .txt vs => vs.length

/-- The number of rows of a frame (df.shape[0]); for the rectangular
frames produced by CSV loading every column has this common length. -/
def DF.nrows (df : DF) : ℕ :=
  (df.cols.map (fun c => c.2.length)).foldr max 0

/-- Row i of the numeric part of a frame:
df.select_dtypes(include=number).iloc[i, :].values. -/
def DF.numericRow (df : DF) (i : ℕ) : List ℚ :=
  (df.cols.filter (fun c => c.2.isNum)).map (fun c => c.2.numVals.getD i 0)

/-- Python list slicing l[a:b] for nonnegative indices. -/
def pySlice (l : List α) (a b : ℕ) : List α := (l.take b).drop a

/-- process_samples (both files): for each sample row i, fit the
wavelength sub-range of the spectrum against the two references and
pair the fitted coefficients with the actual concentrations obtained
from metadata row i: volumes_df.iloc[i, 0] * 0.025 / 300 for styrene
and volumes_df.iloc[i, 1] * 0.25 / 300 for polystyrene.  The source
loop appends to four lists; the embedding builds the same four lists
directly.  The volumes table (fully numeric) is given as its rows. -/
def process_samples (data_df : DF) (volumes : List (List ℚ)) (styrene polystyrene : List ℚ)
    (range_start range_end : ℕ) : List ℚ × List ℚ × List ℚ × List ℚ :=
  let n := data_df.nrows
  ((List.range n).map (fun i =>
      (fit_spectra (pySlice (data_df.numericRow i) range_start range_end) styrene polystyrene).1),
   (List.range n).map (fun i => (volumes.getD i []).getD 0 0 * 0.025 / 300),
   (List.range n).map (fun i =>
      (fit_spectra (pySlice (data_df.numericRow i) range_start range_end) styrene polystyrene).2),
   (List.range n).map (fun i => (volumes.getD i []).getD 1 0 * 0.25 / 300))

/-- load_data (Curve Fitting file): pd.read_csv wrapped in try/except;
the parse outcome (ok frame, or error for FileNotFoundError,
EmptyDataError and any other exception) is the input, and every error
is caught, logged and turned into an empty DataFrame. -/
def load_data (parsed : Except String DF) : DF :=
  match parsed with
  | .ok df => df
  | .error _ => ⟨[]⟩

/-- load_data_new (Curve Fitting file): headerless read, then the
columns are renamed to Row/Col followed by the wavelengths
start_wavelength..end_wavelength.  A column-count mismatch makes the
rename raise ValueError inside the try, so it is also caught and
yields an empty DataFrame, as does any parse error. -/
def load_data_new (parsed : Except String DF)
    (start_wavelength : ℤ := 220) (end_wavelength : ℤ := 1000) : DF :=
  match parsed with
  | .error _ => ⟨[]⟩
  | .ok df =>
    let newNames := "Row/Col" ::
      (List.range (end_wavelength - start_wavelength + 1).toNat).map
        (fun k => toString (start_wavelength + k))
    if df.cols.length = newNames.length then
      ⟨List.zipWith (fun n c => (n, c.2)) newNames df.cols⟩
    else ⟨[]⟩

/-- load_data (Background Correction file): the except branch returns
None, not an empty DataFrame. -/
def load_data_bc (parsed : Except String DF) : Option DF :=
  match parsed with
  | .ok df => some df
  | .error _ => none

/-- load_data_new (Background Correction file): no try/except at all;
a parse failure propagates out of the function, and so does the
ValueError of a column-count mismatch in the rename to
Row/Col, 220..1000. -/
def load_data_new_bc (parsed : Except String DF) : Except String DF :=
  match parsed with
  | .error e => .error e
  | .ok df =>
    let newNames := "Row/Col" :: (List.range 781).map (fun k => toString (220 + k))
    if df.cols.length = newNames.length then
      .ok ⟨List.zipWith (fun n c => (n, c.2)) newNames df.cols⟩
    else .error "ValueError: Length mismatch"

/-- The record returned by scipy.optimize.minimize: the final iterate
x, the convergence flag success, and the objective value at x. -/
structure ScipyResult where
  x : ℚ × ℚ
  success : Bool
  objective : ℚ

/-- The return statement of least_squares_deconvolution / fit_spectra:
return result.x, unconditionally - the success flag of the optimizer
result is never inspected. -/
def deconvolutionReturn (result : ScipyResult) : ℚ × ℚ := result.x

/-- main (Background Correction file): corrected is
data.iloc[:, 1:] - plate.iloc[:, 1:]; blank_row is
corrected.iloc[11, 1:]; the row-wise apply subtracting blank_row is
evaluated but bound to nothing (modelled by the discarded
_row_subtracted value, an Option per column because the first column
of corrected has no matching label in blank_row and would become NaN);
the frame written to CSV is corrected itself. -/
def main_saved (data plate : DF) : DF :=
  let corrected := dfSubNum ⟨data.cols.drop 1⟩ ⟨plate.cols.drop 1⟩
  let blank_row := (corrected.cols.drop 1).map (fun c => (c.1, c.2.numVals.getD 11 0))
  let _row_subtracted := corrected.cols.map (fun c =>
    (c.1, (blank_row.find? (fun b => b.1 == c.1)).map
      (fun bv => c.2.numVals.map (fun v => v - bv.2))))
  corrected

/-! Arithmetic groundwork for the deconvolution objective. -/

lemma sumSquares_nonneg (l : List ℚ) : 0 ≤ sumSquares l := by
  refine List.sum_nonneg ?_
  intro x hx
  obtain ⟨t, -, rfl⟩ := List.mem_map.mp hx
  exact sq_nonneg t

lemma residuals_nonneg (y s p : List ℚ) (c1 c2 : ℚ) : 0 ≤ residuals y s p c1 c2 :=
  sumSquares_nonneg _

lemma dot_nil_left (b : List ℚ) : dot [] b = 0 := rfl

lemma dot_nil_right (a : List ℚ) : dot a [] = 0 := by
  cases a <;> rfl

lemma dot_cons (x y : ℚ) (a b : List ℚ) : dot (x :: a) (y :: b) = x * y + dot a b := by
  simp [dot]

lemma sumSquares_cons (x : ℚ) (l : List ℚ) : sumSquares (x :: l) = x ^ 2 + sumSquares l := by
  simp [sumSquares]

lemma dot_self_nonneg (l : List ℚ) : 0 ≤ dot l l := by
  induction l with
  | nil => simp [dot]
  | cons x l ih =>
    rw [dot_cons]
    have := mul_self_nonneg x
    linarith

/-- Nonnegativity of the Gram quadratic form under the Cauchy-Schwarz
discriminant condition. -/
lemma quad_nonneg (A B C x y : ℚ) (hA : 0 ≤ A) (hC : 0 ≤ C) (hB : B ^ 2 ≤ A * C) :
    0 ≤ A * x ^ 2 + 2 * B * x * y + C * y ^ 2 := by
  rcases hA.eq_or_lt with h | h
  · have hB0 : B = 0 := by nlinarith [sq_nonneg B]
    have : A * x ^ 2 + 2 * B * x * y + C * y ^ 2 = C * y ^ 2 := by
      rw [hB0, ← h]; ring
    rw [this]
    exact mul_nonneg hC (sq_nonneg y)
  · have key : A * (A * x ^ 2 + 2 * B * x * y + C * y ^ 2)
        = (A * x + B * y) ^ 2 + (A * C - B ^ 2) * y ^ 2 := by ring
    have h1 : 0 ≤ (A * x + B * y) ^ 2 + (A * C - B ^ 2) * y ^ 2 :=
      add_nonneg (sq_nonneg _) (mul_nonneg (by linarith) (sq_nonneg _))
    nlinarith

/-- Cauchy-Schwarz for list dot products. -/
lemma dot_sq_le (s p : List ℚ) : (dot s p) ^ 2 ≤ dot s s * dot p p := by
  induction s generalizing p with
  | nil => simp [dot_nil_left]
  | cons b s ih =>
    cases p with
    | nil =>
      rw [dot_nil_right, dot_nil_right]
      simp
    | cons q p =>
      rw [dot_cons, dot_cons, dot_cons]
      have hA := dot_self_nonneg s
      have hC := dot_self_nonneg p
      have hih := ih p
      have h2 : 0 ≤ dot p p * b ^ 2 + 2 * (-(dot s p)) * b * q + dot s s * q ^ 2 := by
        refine quad_nonneg _ _ _ _ _ hC hA ?_
        calc (-(dot s p)) ^ 2 = (dot s p) ^ 2 := by ring
        _ ≤ dot s s * dot p p := hih
        _ = dot p p * dot s s := by ring
      nlinarith

/-- Expansion of the residual sum of squares as a quadratic polynomial
in the coefficients, valid for equal-length spectra. -/
lemma residuals_expand (y s p : List ℚ) (hy : y.length = s.length)
    (hsp : s.length = p.length) (c1 c2 : ℚ) :
    residuals y s p c1 c2
      = fpoly (dot s s) (dot s p) (dot p p) (dot y s) (dot y p) (sumSquares y) c1 c2 := by
  induction y generalizing s p with
  | nil =>
    have hs : s = [] := List.length_eq_zero.mp (by simpa using hy.symm)
    subst hs
    have hp : p = [] := List.length_eq_zero.mp (by simpa using hsp.symm)
    subst hp
    simp [residuals, combinedSpectrum, sumSquares, dot, fpoly]
  | cons a y ih =>
    cases s with
    | nil => simp at hy
    | cons b s =>
      cases p with
      | nil => simp at hsp
      | cons q p =>
        have hy2 : y.length = s.length := by simpa using hy
        have hsp2 : s.length = p.length := by simpa using hsp
        have hcons : residuals (a :: y) (b :: s) (q :: p) c1 c2
            = (a - (c1 * b + c2 * q)) ^ 2 + residuals y s p c1 c2 := by
          simp [residuals, combinedSpectrum, sumSquares]
        rw [hcons, ih s p hy2 hsp2, dot_cons, dot_cons, dot_cons, dot_cons, dot_cons,
          sumSquares_cons]
        unfold fpoly
        ring

/-- KKT sufficiency: a feasible point with nonnegative multipliers and
complementary slackness minimizes the convex quadrant problem. -/
lemma fpoly_kkt (A B C D E F c1 c2 : ℚ) (hA : 0 ≤ A) (hC : 0 ≤ C) (hB : B ^ 2 ≤ A * C)
    (hg1 : 0 ≤ A * c1 + B * c2 - D) (hg2 : 0 ≤ B * c1 + C * c2 - E)
    (hs1 : (A * c1 + B * c2 - D) * c1 = 0) (hs2 : (B * c1 + C * c2 - E) * c2 = 0)
    (d1 d2 : ℚ) (hd1 : 0 ≤ d1) (hd2 : 0 ≤ d2) :
    fpoly A B C D E F c1 c2 ≤ fpoly A B C D E F d1 d2 := by
  have hdelta : fpoly A B C D E F d1 d2 - fpoly A B C D E F c1 c2
      = 2 * ((A * c1 + B * c2 - D) * (d1 - c1)) + 2 * ((B * c1 + C * c2 - E) * (d2 - c2))
        + (A * (d1 - c1) ^ 2 + 2 * B * (d1 - c1) * (d2 - c2) + C * (d2 - c2) ^ 2) := by
    unfold fpoly; ring
  have h1 : 0 ≤ (A * c1 + B * c2 - D) * (d1 - c1) := by
    have hrw : (A * c1 + B * c2 - D) * (d1 - c1)
        = (A * c1 + B * c2 - D) * d1 - (A * c1 + B * c2 - D) * c1 := by ring
    rw [hrw, hs1, sub_zero]
    exact mul_nonneg hg1 hd1
  have h2 : 0 ≤ (B * c1 + C * c2 - E) * (d2 - c2) := by
    have hrw : (B * c1 + C * c2 - E) * (d2 - c2)
        = (B * c1 + C * c2 - E) * d2 - (B * c1 + C * c2 - E) * c2 := by ring
    rw [hrw, hs2, sub_zero]
    exact mul_nonneg hg2 hd2
  have hq := quad_nonneg A B C (d1 - c1) (d2 - c2) hA hC hB
  linarith

/-- Minimality of the clamped stationary point of the one-dimensional
restriction t to f0 - 2dt + at^2 over t greater or equal zero. -/
lemma quad1d_min (a d f0 : ℚ) (ha : 0 ≤ a) (had : a = 0 → d = 0) (t : ℚ) (ht : 0 ≤ t) :
    f0 - 2 * d * (if a = 0 then 0 else max 0 (d / a)) + a * (if a = 0 then 0 else max 0 (d / a)) ^ 2
      ≤ f0 - 2 * d * t + a * t ^ 2 := by
  by_cases ha0 : a = 0
  · rw [if_pos ha0, had ha0, ha0]
    ring_nf
    nlinarith [sq_nonneg t]
  · rw [if_neg ha0]
    have hapos : 0 < a := lt_of_le_of_ne ha (Ne.symm ha0)
    by_cases hd : d ≤ 0
    · have hm : max 0 (d / a) = 0 := max_eq_left (div_nonpos_iff.mpr (Or.inr ⟨hd, hapos.le⟩))
      rw [hm]
      have hterm1 : 0 ≤ -2 * d * t := by nlinarith
      nlinarith [sq_nonneg t, mul_nonneg ha (sq_nonneg t)]
    · push_neg at hd
      have hm : max 0 (d / a) = d / a := max_eq_right (le_of_lt (div_pos hd hapos))
      rw [hm]
      have hsq : (f0 - 2 * d * t + a * t ^ 2) - (f0 - 2 * d * (d / a) + a * (d / a) ^ 2)
          = a * (t - d / a) ^ 2 := by
        field_simp
        ring
      nlinarith [mul_nonneg ha (sq_nonneg (t - d / a))]

/-- When the interior stationary point is degenerate or infeasible,
every feasible point is dominated by a feasible boundary point. -/
lemma fpoly_boundary (A B C D E F : ℚ) (hA : 0 ≤ A) (hC : 0 ≤ C) (hB : B ^ 2 ≤ A * C)
    (hA0 : A = 0 → B = 0 ∧ D = 0) (hC0 : C = 0 → B = 0 ∧ E = 0)
    (hnn : ∀ x y : ℚ, 0 ≤ fpoly A B C D E F x y)
    (hnotint : ¬(A * C - B * B ≠ 0 ∧ 0 ≤ (C * D - B * E) / (A * C - B * B)
      ∧ 0 ≤ (A * E - B * D) / (A * C - B * B)))
    (d1 d2 : ℚ) (hd1 : 0 ≤ d1) (hd2 : 0 ≤ d2) :
    ∃ b1 b2 : ℚ, 0 ≤ b1 ∧ 0 ≤ b2 ∧ (b1 = 0 ∨ b2 = 0)
      ∧ fpoly A B C D E F b1 b2 ≤ fpoly A B C D E F d1 d2 := by
  by_cases hdet : A * C - B * B = 0
  · by_cases hAz : A = 0
    · obtain ⟨hB0, hD0⟩ := hA0 hAz
      refine ⟨0, d2, le_refl 0, hd2, Or.inl rfl, le_of_eq ?_⟩
      unfold fpoly
      rw [hAz, hB0, hD0]
      ring
    · by_cases hCz : C = 0
      · obtain ⟨hB0, hE0⟩ := hC0 hCz
        refine ⟨d1, 0, hd1, le_refl 0, Or.inr rfl, le_of_eq ?_⟩
        unfold fpoly
        rw [hCz, hB0, hE0]
        ring
      · have hApos : 0 < A := lt_of_le_of_ne hA (Ne.symm hAz)
        have hCpos : 0 < C := lt_of_le_of_ne hC (Ne.symm hCz)
        have hBne : B ≠ 0 := by
          intro hB0
          rw [hB0] at hdet
          have : A * C = 0 := by linarith
          rcases mul_eq_zero.mp this with h | h
          · exact hAz h
          · exact hCz h
        have hline : ∀ x y t : ℚ, fpoly A B C D E F (x + t * C) (y - t * B)
            = fpoly A B C D E F x y + t * (2 * (E * B - D * C)) := by
          intro x y t
          unfold fpoly
          linear_combination (2 * x * t + t ^ 2 * C) * hdet
        have hg0 : 2 * (E * B - D * C) = 0 := by
          by_contra hne
          set g0 := 2 * (E * B - D * C) with hg0def
          set t0 := -(fpoly A B C D E F 0 0 + 1) / g0 with ht0def
          have ht0 : t0 * g0 = -(fpoly A B C D E F 0 0 + 1) := by
            rw [ht0def]
            field_simp
          have hval := hline 0 0 t0
          rw [ht0] at hval
          have hpos := hnn (0 + t0 * C) (0 - t0 * B)
          rw [hval] at hpos
          linarith
        have hconst : ∀ x y t : ℚ, fpoly A B C D E F (x + t * C) (y - t * B)
            = fpoly A B C D E F x y := by
          intro x y t
          rw [hline, hg0]
          ring
        rcases lt_or_gt_of_ne hBne with hBneg | hBpos
        · set t1 := min (d1 / C) (d2 / (-B)) with ht1def
          have hnB : 0 < -B := by linarith
          have ht1nn : 0 ≤ t1 :=
            le_min (div_nonneg hd1 hCpos.le) (div_nonneg hd2 hnB.le)
          have hb1 : 0 ≤ d1 - t1 * C := by
            have h := min_le_left (d1 / C) (d2 / (-B))
            have : t1 * C ≤ (d1 / C) * C := by
              exact mul_le_mul_of_nonneg_right h hCpos.le
            rw [div_mul_cancel₀ _ (ne_of_gt hCpos)] at this
            linarith
          have hb2 : 0 ≤ d2 + t1 * B := by
            have h := min_le_right (d1 / C) (d2 / (-B))
            have : t1 * (-B) ≤ (d2 / (-B)) * (-B) := by
              exact mul_le_mul_of_nonneg_right h hnB.le
            rw [div_mul_cancel₀ _ (ne_of_gt hnB)] at this
            linarith
          have hf : fpoly A B C D E F (d1 - t1 * C) (d2 + t1 * B)
              = fpoly A B C D E F d1 d2 := by
            have := hconst (d1 - t1 * C) (d2 + t1 * B) t1
            have harg1 : d1 - t1 * C + t1 * C = d1 := by ring
            have harg2 : d2 + t1 * B - t1 * B = d2 := by ring
            rw [harg1, harg2] at this
            exact this.symm
          refine ⟨d1 - t1 * C, d2 + t1 * B, hb1, hb2, ?_, le_of_eq hf⟩
          rcases min_choice (d1 / C) (d2 / (-B)) with hmin | hmin
          · left
            rw [ht1def, hmin, div_mul_cancel₀ _ (ne_of_gt hCpos)]
            ring
          · right
            rw [ht1def, hmin]
            field_simp
        · set t1 := d2 / B with ht1def
          have ht1nn : 0 ≤ t1 := div_nonneg hd2 hBpos.le
          have hb1 : 0 ≤ d1 + t1 * C := by
            have : 0 ≤ t1 * C := mul_nonneg ht1nn hCpos.le
            linarith
          have hzero : d2 - t1 * B = 0 := by
            rw [ht1def, div_mul_cancel₀ _ (ne_of_gt hBpos)]
            ring
          have hf : fpoly A B C D E F (d1 + t1 * C) (d2 - t1 * B)
              = fpoly A B C D E F d1 d2 := hconst d1 d2 t1
          refine ⟨d1 + t1 * C, d2 - t1 * B, hb1, le_of_eq hzero.symm, Or.inr hzero,
            le_of_eq hf⟩
  · push_neg at hnotint
    set u1 := (C * D - B * E) / (A * C - B * B) with hu1def
    set u2 := (A * E - B * D) / (A * C - B * B) with hu2def
    have hdetpos : 0 < A * C - B * B := by
      have h1 : 0 ≤ A * C - B * B := by nlinarith [hB]
      exact lt_of_le_of_ne h1 (Ne.symm hdet)
    have hstat1 : A * u1 + B * u2 = D := by
      rw [hu1def, hu2def]
      field_simp
      ring
    have hstat2 : B * u1 + C * u2 = E := by
      rw [hu1def, hu2def]
      field_simp
      ring
    have hseg : ∀ t : ℚ, 0 ≤ t → t ≤ 1 →
        fpoly A B C D E F (u1 + t * (d1 - u1)) (u2 + t * (d2 - u2))
          ≤ fpoly A B C D E F d1 d2 := by
      intro t ht0 ht1
      have hq : ∀ r : ℚ, fpoly A B C D E F (u1 + r * (d1 - u1)) (u2 + r * (d2 - u2))
          = fpoly A B C D E F u1 u2
            + r ^ 2 * (A * (d1 - u1) ^ 2 + 2 * B * (d1 - u1) * (d2 - u2)
              + C * (d2 - u2) ^ 2) := by
        intro r
        unfold fpoly
        linear_combination (2 * r * (d1 - u1)) * hstat1 + (2 * r * (d2 - u2)) * hstat2
      have hQnn := quad_nonneg A B C (d1 - u1) (d2 - u2) hA hC hB
      have hd : fpoly A B C D E F d1 d2 = fpoly A B C D E F u1 u2
          + 1 * (A * (d1 - u1) ^ 2 + 2 * B * (d1 - u1) * (d2 - u2) + C * (d2 - u2) ^ 2) := by
        have h1 := hq 1
        have harg1 : u1 + 1 * (d1 - u1) = d1 := by ring
        have harg2 : u2 + 1 * (d2 - u2) = d2 := by ring
        rw [harg1, harg2] at h1
        rw [h1]
        ring
      rw [hq t, hd]
      have ht2 : t ^ 2 ≤ 1 := by nlinarith
      nlinarith
    rcases lt_or_le u1 0 with hu1neg | hu1nn
    · rcases lt_or_le u2 0 with hu2neg | hu2nn
      · -- both coordinates of the stationary point negative
        set s1 := -u1 / (d1 - u1) with hs1def
        set s2 := -u2 / (d2 - u2) with hs2def
        have hden1 : 0 < d1 - u1 := by linarith
        have hden2 : 0 < d2 - u2 := by linarith
        have hs1pos : 0 < s1 := div_pos (by linarith) hden1
        have hs2pos : 0 < s2 := div_pos (by linarith) hden2
        have hs1le : s1 ≤ 1 := by
          rw [hs1def, div_le_one hden1]
          linarith
        have hs2le : s2 ≤ 1 := by
          rw [hs2def, div_le_one hden2]
          linarith
        set t0 := max s1 s2 with ht0def
        have ht0nn : 0 ≤ t0 := le_trans hs1pos.le (le_max_left _ _)
        have ht0le : t0 ≤ 1 := max_le hs1le hs2le
        have hcan1 : u1 + s1 * (d1 - u1) = 0 := by
          rw [hs1def, div_mul_cancel₀ _ (ne_of_gt hden1)]
          ring
        have hcan2 : u2 + s2 * (d2 - u2) = 0 := by
          rw [hs2def, div_mul_cancel₀ _ (ne_of_gt hden2)]
          ring
        have hb1 : 0 ≤ u1 + t0 * (d1 - u1) := by
          have h := le_max_left s1 s2
          nlinarith
        have hb2 : 0 ≤ u2 + t0 * (d2 - u2) := by
          have h := le_max_right s1 s2
          nlinarith
        refine ⟨u1 + t0 * (d1 - u1), u2 + t0 * (d2 - u2), hb1, hb2, ?_,
          hseg t0 ht0nn ht0le⟩
        rcases max_choice s1 s2 with hmax | hmax
        · left
          rw [ht0def, hmax]
          exact hcan1
        · right
          rw [ht0def, hmax]
          exact hcan2
      · -- only the first coordinate negative
        set s1 := -u1 / (d1 - u1) with hs1def
        have hden1 : 0 < d1 - u1 := by linarith
        have hs1pos : 0 < s1 := div_pos (by linarith) hden1
        have hs1le : s1 ≤ 1 := by
          rw [hs1def, div_le_one hden1]
          linarith
        have hcan1 : u1 + s1 * (d1 - u1) = 0 := by
          rw [hs1def, div_mul_cancel₀ _ (ne_of_gt hden1)]
          ring
        have hb2 : 0 ≤ u2 + s1 * (d2 - u2) := by nlinarith
        exact ⟨u1 + s1 * (d1 - u1), u2 + s1 * (d2 - u2), le_of_eq hcan1.symm, hb2,
          Or.inl hcan1, hseg s1 hs1pos.le hs1le⟩
    · have hu2neg : u2 < 0 := hnotint hdet hu1nn
      set s2 := -u2 / (d2 - u2) with hs2def
      have hden2 : 0 < d2 - u2 := by linarith
      have hs2pos : 0 < s2 := div_pos (by linarith) hden2
      have hs2le : s2 ≤ 1 := by
        rw [hs2def, div_le_one hden2]
        linarith
      have hcan2 : u2 + s2 * (d2 - u2) = 0 := by
        rw [hs2def, div_mul_cancel₀ _ (ne_of_gt hden2)]
        ring
      have hb1 : 0 ≤ u1 + s2 * (d1 - u1) := by nlinarith
      exact ⟨u1 + s2 * (d1 - u1), u2 + s2 * (d2 - u2), hb1, le_of_eq hcan2.symm,
        Or.inr hcan2, hseg s2 hs2pos.le hs2le⟩

/-- The embedded deconvolution returns a feasible global minimizer of
the residual sum of squares over the nonnegative quadrant: it
implements the contract of the bounded scipy.optimize.minimize call. -/
theorem least_squares_deconvolution_isMinimizer (y s p : List ℚ)
    (hy : y.length = s.length) (hsp : s.length = p.length) :
    IsDeconvMinimizer y s p (least_squares_deconvolution y s p) := by
  have hexp := residuals_expand y s p hy hsp
  have hA := dot_self_nonneg s
  have hC := dot_self_nonneg p
  have hCS := dot_sq_le s p
  have hA0 : dot s s = 0 → dot s p = 0 ∧ dot y s = 0 := by
    intro h
    constructor
    · have h2 : dot s p ^ 2 ≤ 0 := by
        have h3 := dot_sq_le s p
        rw [h, zero_mul] at h3
        exact h3
      have h3 : dot s p ^ 2 = 0 := le_antisymm h2 (sq_nonneg _)
      exact pow_eq_zero_iff (by norm_num) |>.mp h3
    · have h2 : dot y s ^ 2 ≤ 0 := by
        have h3 := dot_sq_le y s
        rw [h, mul_zero] at h3
        exact h3
      have h3 : dot y s ^ 2 = 0 := le_antisymm h2 (sq_nonneg _)
      exact pow_eq_zero_iff (by norm_num) |>.mp h3
  have hC0 : dot p p = 0 → dot s p = 0 ∧ dot y p = 0 := by
    intro h
    constructor
    · have h2 : dot s p ^ 2 ≤ 0 := by
        have h3 := dot_sq_le s p
        rw [h, mul_zero] at h3
        exact h3
      have h3 : dot s p ^ 2 = 0 := le_antisymm h2 (sq_nonneg _)
      exact pow_eq_zero_iff (by norm_num) |>.mp h3
    · have h2 : dot y p ^ 2 ≤ 0 := by
        have h3 := dot_sq_le y p
        rw [h, mul_zero] at h3
        exact h3
      have h3 : dot y p ^ 2 = 0 := le_antisymm h2 (sq_nonneg _)
      exact pow_eq_zero_iff (by norm_num) |>.mp h3
  have hnn : ∀ x z : ℚ,
      0 ≤ fpoly (dot s s) (dot s p) (dot p p) (dot y s) (dot y p) (sumSquares y) x z := by
    intro x z
    rw [← hexp x z]
    exact residuals_nonneg y s p x z
  have hedge1 : ∀ t : ℚ,
      fpoly (dot s s) (dot s p) (dot p p) (dot y s) (dot y p) (sumSquares y) t 0
        = sumSquares y - 2 * dot y s * t + dot s s * t ^ 2 := by
    intro t
    unfold fpoly
    ring
  have hedge2 : ∀ t : ℚ,
      fpoly (dot s s) (dot s p) (dot p p) (dot y s) (dot y p) (sumSquares y) 0 t
        = sumSquares y - 2 * dot y p * t + dot p p * t ^ 2 := by
    intro t
    unfold fpoly
    ring
  simp only [least_squares_deconvolution]
  dsimp only
  by_cases hint : dot s s * dot p p - dot s p * dot s p ≠ 0
      ∧ 0 ≤ (dot p p * dot y s - dot s p * dot y p) / (dot s s * dot p p - dot s p * dot s p)
      ∧ 0 ≤ (dot s s * dot y p - dot s p * dot y s) / (dot s s * dot p p - dot s p * dot s p)
  case pos =>
    rw [if_pos hint]
    refine ⟨hint.2.1, hint.2.2, ?_⟩
    intro d1 d2 hd1 hd2
    rw [hexp, hexp]
    have hdet := hint.1
    have hstat1 : dot s s * ((dot p p * dot y s - dot s p * dot y p)
          / (dot s s * dot p p - dot s p * dot s p))
        + dot s p * ((dot s s * dot y p - dot s p * dot y s)
          / (dot s s * dot p p - dot s p * dot s p)) - dot y s = 0 := by
      field_simp
      ring
    have hstat2 : dot s p * ((dot p p * dot y s - dot s p * dot y p)
          / (dot s s * dot p p - dot s p * dot s p))
        + dot p p * ((dot s s * dot y p - dot s p * dot y s)
          / (dot s s * dot p p - dot s p * dot s p)) - dot y p = 0 := by
      field_simp
      ring
    refine fpoly_kkt _ _ _ _ _ _ _ _ hA hC hCS (le_of_eq hstat1.symm)
      (le_of_eq hstat2.symm) ?_ ?_ d1 d2 hd1 hd2
    · rw [hstat1]
      ring
    · rw [hstat2]
      ring
  case neg =>
    rw [if_neg hint]
    by_cases hcmp : residuals y s p (if dot s s = 0 then 0 else max 0 (dot y s / dot s s)) 0
        ≤ residuals y s p 0 (if dot p p = 0 then 0 else max 0 (dot y p / dot p p))
    case pos =>
      rw [if_pos hcmp]
      refine ⟨?_, le_refl 0, ?_⟩
      · split_ifs with hAz
        · exact le_refl 0
        · exact le_max_left 0 _
      · intro d1 d2 hd1 hd2
        rw [hexp, hexp]
        rw [hexp, hexp] at hcmp
        obtain ⟨b1, b2, hb1, hb2, hbd, hfb⟩ :=
          fpoly_boundary (dot s s) (dot s p) (dot p p) (dot y s) (dot y p) (sumSquares y)
            hA hC hCS hA0 hC0 hnn hint d1 d2 hd1 hd2
        rcases hbd with hb10 | hb20
        · have h1d := quad1d_min (dot p p) (dot y p) (sumSquares y) hC
            (fun h => (hC0 h).2) b2 hb2
          rw [← hedge2, ← hedge2] at h1d
          rw [hb10] at hfb
          exact le_trans hcmp (le_trans h1d hfb)
        · have h1d := quad1d_min (dot s s) (dot y s) (sumSquares y) hA
            (fun h => (hA0 h).2) b1 hb1
          rw [← hedge1, ← hedge1] at h1d
          rw [hb20] at hfb
          exact le_trans h1d hfb
    case neg =>
      rw [if_neg hcmp]
      refine ⟨le_refl 0, ?_, ?_⟩
      · split_ifs with hCz
        · exact le_refl 0
        · exact le_max_left 0 _
      · intro d1 d2 hd1 hd2
        rw [hexp, hexp]
        rw [hexp, hexp] at hcmp
        have hcmp2 := (not_le.mp hcmp).le
        obtain ⟨b1, b2, hb1, hb2, hbd, hfb⟩ :=
          fpoly_boundary (dot s s) (dot s p) (dot p p) (dot y s) (dot y p) (sumSquares y)
            hA hC hCS hA0 hC0 hnn hint d1 d2 hd1 hd2
        rcases hbd with hb10 | hb20
        · have h1d := quad1d_min (dot p p) (dot y p) (sumSquares y) hC
            (fun h => (hC0 h).2) b2 hb2
          rw [← hedge2, ← hedge2] at h1d
          rw [hb10] at hfb
          exact le_trans h1d hfb
        · have h1d := quad1d_min (dot s s) (dot y s) (sumSquares y) hA
            (fun h => (hA0 h).2) b1 hb1
          rw [← hedge1, ← hedge1] at h1d
          rw [hb20] at hfb
          exact le_trans hcmp2 (le_trans h1d hfb)

lemma residuals_cons (y0 s0 p0 : ℚ) (y s p : List ℚ) (c1 c2 : ℚ) :
    residuals (y0 :: y) (s0 :: s) (p0 :: p) c1 c2
      = (y0 - (c1 * s0 + c2 * p0)) ^ 2 + residuals y s p c1 c2 := by
  simp [residuals, combinedSpectrum, sumSquares]

lemma dot_comm (a b : List ℚ) : dot a b = dot b a := by
  induction a generalizing b with
  | nil => rw [dot_nil_left, dot_nil_right]
  | cons x a ih =>
    cases b with
    | nil => rw [dot_nil_left, dot_nil_right]
    | cons z b =>
      rw [dot_cons, dot_cons, ih]
      ring

lemma dot_combined (s p q : List ℚ) (a b : ℚ) (hsp : s.length = p.length) :
    dot (combinedSpectrum a b s p) q = a * dot s q + b * dot p q := by
  induction s generalizing p q with
  | nil =>
    have hp : p = [] := List.length_eq_zero.mp (by simpa using hsp.symm)
    subst hp
    simp [combinedSpectrum, dot]
  | cons s0 s ih =>
    cases p with
    | nil => simp at hsp
    | cons p0 p =>
      cases q with
      | nil =>
        rw [dot_nil_right, dot_nil_right, dot_nil_right]
        ring
      | cons q0 q =>
        have hsp2 : s.length = p.length := by simpa using hsp
        have hcons : combinedSpectrum a b (s0 :: s) (p0 :: p)
            = (a * s0 + b * p0) :: combinedSpectrum a b s p := rfl
        rw [hcons, dot_cons, dot_cons, dot_cons, ih p q hsp2]
        ring

lemma sumSquares_eq_dot_self (l : List ℚ) : sumSquares l = dot l l := by
  induction l with
  | nil => rfl
  | cons x l ih =>
    rw [sumSquares_cons, dot_cons, ih]
    ring

lemma residuals_combined (s p : List ℚ) (a b : ℚ) :
    residuals (combinedSpectrum a b s p) s p a b = 0 := by
  induction s generalizing p with
  | nil => simp [residuals, combinedSpectrum, sumSquares]
  | cons s0 s ih =>
    cases p with
    | nil => simp [residuals, combinedSpectrum, sumSquares]
    | cons p0 p =>
      have hcons : combinedSpectrum a b (s0 :: s) (p0 :: p)
          = (a * s0 + b * p0) :: combinedSpectrum a b s p := rfl
      rw [hcons, residuals_cons, ih]
      ring

lemma sumSquares_zipWith_sub_self (l : List ℚ) :
    sumSquares (List.zipWith (· - ·) l l) = 0 := by
  induction l with
  | nil => rfl
  | cons x l ih =>
    simp only [List.zipWith_cons_cons, sumSquares_cons, ih]
    ring

/-- Both coordinates returned by the embedded deconvolution are
nonnegative, by the case structure of the minimizer. -/
lemma lsd_nonneg (y s p : List ℚ) :
    0 ≤ (least_squares_deconvolution y s p).1
      ∧ 0 ≤ (least_squares_deconvolution y s p).2 := by
  simp only [least_squares_deconvolution]
  dsimp only
  split_ifs <;> refine ⟨?_, ?_⟩ <;>
    first
      | exact le_refl 0
      | exact le_max_left 0 _
      | tauto

/-- C1: For every sample spectrum and every pair of reference spectra,
the coefficient pair returned by least_squares_deconvolution (and by
fit_spectra) has both components nonnegative, regardless of the sign
of the observed values: the bounds of the minimize call are always in
force. -/
theorem c1_deconvolution_coefficients_nonneg (y s p : List ℚ) :
    0 ≤ (least_squares_deconvolution y s p).1
      ∧ 0 ≤ (least_squares_deconvolution y s p).2
      ∧ 0 ≤ (fit_spectra y s p).1
      ∧ 0 ≤ (fit_spectra y s p).2 :=
  ⟨(lsd_nonneg y s p).1, (lsd_nonneg y s p).2, (lsd_nonneg y s p).1, (lsd_nonneg y s p).2⟩

/-- C2: calculate_r_squared computes 1 - SS_res / SS_tot with no guard:
on the constant observed spectrum (1, 1) against the fitted spectrum
(0, 0), SS_tot is 0 and the division by zero is performed, producing a
non-finite float (none in the embedding) instead of a guarded,
explicitly reported undefined value. -/
theorem c2_r_squared_division_by_zero :
    sumSquares (([1, 1] : List ℚ).map (fun v => v - listMean [1, 1])) = 0
      ∧ calculate_r_squared [1, 1] [0, 0] = none := by
  constructor <;> norm_num [calculate_r_squared, sumSquares, listMean]

/-- C9: the deconvolution returns result.x whatever the success flag
says: a non-converged optimizer result is returned as if it were the
final answer, with no explicit failure surfaced. -/
theorem c9_nonconvergence_not_surfaced (r : ScipyResult) (_h : r.success = false) :
    deconvolutionReturn r = r.x := rfl

theorem c9_nonconvergence_not_surfaced_witness :
    (ScipyResult.mk (3, 4) false 5).success = false
      ∧ deconvolutionReturn (ScipyResult.mk (3, 4) false 5) = (3, 4) :=
  ⟨rfl, c9_nonconvergence_not_surfaced (ScipyResult.mk (3, 4) false 5) rfl⟩

/-- C6 fails as stated, at two concrete inputs of the quantified
claim.  (i) With the independent references (1, 0) and (0, 1) and
a = b = 0, the observed spectrum 0 * ref1 + 0 * ref2 is identically
zero: the coefficients (0, 0) are the unique minimizer and are
returned, but SS_tot = 0, so the R-squared of the fitted spectrum is a
division by zero (no finite value), not 1.  (ii) With identical
references ref1 = ref2 = (1,) and the spectrum built as
1 * ref1 + 0 * ref2, the decomposition is not identifiable: (1, 0) and
(0, 1) are both exact minimizers of the bounded objective the source
hands to minimize, so returning a minimizer cannot promise the pair
(a, b). -/
theorem c6_counterexample :
    (least_squares_deconvolution (combinedSpectrum 0 0 [1, 0] [0, 1]) [1, 0] [0, 1] = (0, 0)
      ∧ calculate_r_squared (combinedSpectrum 0 0 [1, 0] [0, 1])
          (combinedSpectrum
            (least_squares_deconvolution
              (combinedSpectrum 0 0 [1, 0] [0, 1]) [1, 0] [0, 1]).1
            (least_squares_deconvolution
              (combinedSpectrum 0 0 [1, 0] [0, 1]) [1, 0] [0, 1]).2
            [1, 0] [0, 1]) ≠ some 1)
      ∧ (IsDeconvMinimizer (combinedSpectrum 1 0 [1] [1]) [1] [1] (1, 0)
        ∧ IsDeconvMinimizer (combinedSpectrum 1 0 [1] [1]) [1] [1] (0, 1)
        ∧ ((1 : ℚ), (0 : ℚ)) ≠ ((0 : ℚ), (1 : ℚ))) := by
  have hval : least_squares_deconvolution (combinedSpectrum 0 0 [1, 0] [0, 1]) [1, 0] [0, 1]
      = (0, 0) := by
    norm_num [least_squares_deconvolution, combinedSpectrum, dot, residuals, sumSquares]
  refine ⟨⟨hval, ?_⟩, ?_, ?_, ?_⟩
  · rw [hval]
    have hnone : calculate_r_squared (combinedSpectrum 0 0 [1, 0] [0, 1])
        (combinedSpectrum ((0 : ℚ), (0 : ℚ)).1 ((0 : ℚ), (0 : ℚ)).2 [1, 0] [0, 1])
        = none := by
      norm_num [calculate_r_squared, combinedSpectrum, sumSquares, listMean]
    rw [hnone]
    simp
  · refine ⟨by norm_num, by norm_num, ?_⟩
    intro d1 d2 hd1 hd2
    have h0 : residuals (combinedSpectrum 1 0 [1] [1]) [1] [1]
        ((1 : ℚ), (0 : ℚ)).1 ((1 : ℚ), (0 : ℚ)).2 = 0 := by
      norm_num [residuals, combinedSpectrum, sumSquares]
    rw [h0]
    exact residuals_nonneg _ _ _ _ _
  · refine ⟨by norm_num, by norm_num, ?_⟩
    intro d1 d2 hd1 hd2
    have h0 : residuals (combinedSpectrum 1 0 [1] [1]) [1] [1]
        ((0 : ℚ), (1 : ℚ)).1 ((0 : ℚ), (1 : ℚ)).2 = 0 := by
      norm_num [residuals, combinedSpectrum, sumSquares]
    rw [h0]
    exact residuals_nonneg _ _ _ _ _
  · intro hcontra
    rw [Prod.mk.injEq] at hcontra
    norm_num at hcontra

/-- C6 amended: when the references are linearly independent (nonzero
Gram determinant) and the synthesized spectrum is non-constant
(nonzero total sum of squares), deconvolution of a * ref1 + b * ref2
with nonnegative a, b recovers (a, b) exactly and the R-squared of the
fitted spectrum against the observed spectrum is exactly 1. -/
theorem c6_exact_recovery (s p : List ℚ) (a b : ℚ) (hsp : s.length = p.length)
    (ha : 0 ≤ a) (hb : 0 ≤ b)
    (hdet : dot s s * dot p p - dot s p * dot s p ≠ 0)
    (htot : sumSquares ((combinedSpectrum a b s p).map
      (fun v => v - listMean (combinedSpectrum a b s p))) ≠ 0) :
    least_squares_deconvolution (combinedSpectrum a b s p) s p = (a, b)
      ∧ calculate_r_squared (combinedSpectrum a b s p)
          (combinedSpectrum
            (least_squares_deconvolution (combinedSpectrum a b s p) s p).1
            (least_squares_deconvolution (combinedSpectrum a b s p) s p).2 s p) = some 1 := by
  have hy : (combinedSpectrum a b s p).length = s.length := by
    simp [combinedSpectrum, hsp]
  have hmin := least_squares_deconvolution_isMinimizer (combinedSpectrum a b s p) s p hy hsp
  obtain ⟨r1, r2, hr⟩ : ∃ r1 r2 : ℚ,
      least_squares_deconvolution (combinedSpectrum a b s p) s p = (r1, r2) := ⟨_, _, rfl⟩
  rw [hr] at hmin
  have hres0 : residuals (combinedSpectrum a b s p) s p a b = 0 := residuals_combined s p a b
  have hzero : residuals (combinedSpectrum a b s p) s p r1 r2 = 0 := by
    have hle : residuals (combinedSpectrum a b s p) s p r1 r2
        ≤ residuals (combinedSpectrum a b s p) s p a b := hmin.2.2 a b ha hb
    rw [hres0] at hle
    exact le_antisymm hle (residuals_nonneg _ _ _ _ _)
  have hexp := residuals_expand (combinedSpectrum a b s p) s p hy hsp
  have hD : dot (combinedSpectrum a b s p) s = a * dot s s + b * dot p s :=
    dot_combined s p s a b hsp
  have hE : dot (combinedSpectrum a b s p) p = a * dot s p + b * dot p p :=
    dot_combined s p p a b hsp
  have hF : sumSquares (combinedSpectrum a b s p)
      = a * (a * dot s s + b * dot p s) + b * (a * dot s p + b * dot p p) := by
    rw [sumSquares_eq_dot_self, dot_combined s p (combinedSpectrum a b s p) a b hsp,
      dot_comm s (combinedSpectrum a b s p), dot_comm p (combinedSpectrum a b s p), hD, hE]
  have hcomm : dot p s = dot s p := dot_comm p s
  have hCS := dot_sq_le s p
  have hA := dot_self_nonneg s
  have hC := dot_self_nonneg p
  have hdetnn : 0 ≤ dot s s * dot p p - dot s p * dot s p := by nlinarith [hCS]
  have hdetpos : 0 < dot s s * dot p p - dot s p * dot s p :=
    lt_of_le_of_ne hdetnn (Ne.symm hdet)
  have hApos : 0 < dot s s := by
    rcases hA.eq_or_lt with h | h
    · exfalso
      have hB0 : dot s p = 0 := by nlinarith [sq_nonneg (dot s p)]
      rw [← h, hB0] at hdetpos
      norm_num at hdetpos
    · exact h
  have hq0 : dot s s * (r1 - a) ^ 2 + 2 * dot s p * (r1 - a) * (r2 - b)
      + dot p p * (r2 - b) ^ 2 = 0 := by
    have h1 := hexp r1 r2
    rw [hzero] at h1
    unfold fpoly at h1
    rw [hD, hE, hF, hcomm] at h1
    linear_combination -h1
  have hterm : (dot s s * dot p p - dot s p * dot s p) * (r2 - b) ^ 2 = 0 := by
    have hsum : (dot s s * (r1 - a) + dot s p * (r2 - b)) ^ 2
        + (dot s s * dot p p - dot s p * dot s p) * (r2 - b) ^ 2
        = dot s s * (dot s s * (r1 - a) ^ 2 + 2 * dot s p * (r1 - a) * (r2 - b)
          + dot p p * (r2 - b) ^ 2) := by ring
    rw [hq0, mul_zero] at hsum
    have hge : 0 ≤ (dot s s * dot p p - dot s p * dot s p) * (r2 - b) ^ 2 :=
      mul_nonneg hdetnn (sq_nonneg _)
    linarith [sq_nonneg (dot s s * (r1 - a) + dot s p * (r2 - b))]
  have hr2b : r2 = b := by
    rcases mul_eq_zero.mp hterm with h | h
    · exact absurd h hdet
    · have := pow_eq_zero_iff (n := 2) (by norm_num) |>.mp h
      linarith
  have hr1a : r1 = a := by
    rw [hr2b] at hq0
    have h1 : dot s s * (r1 - a) ^ 2 = 0 := by linear_combination hq0
    rcases mul_eq_zero.mp h1 with h | h
    · exact absurd h (ne_of_gt hApos)
    · have := pow_eq_zero_iff (n := 2) (by norm_num) |>.mp h
      linarith
  have hpair : least_squares_deconvolution (combinedSpectrum a b s p) s p = (a, b) := by
    rw [hr, hr1a, hr2b]
  refine ⟨hpair, ?_⟩
  rw [hpair]
  show calculate_r_squared (combinedSpectrum a b s p) (combinedSpectrum a b s p) = some 1
  rw [calculate_r_squared]
  simp only [sumSquares_zipWith_sub_self]
  rw [if_neg htot]
  norm_num

theorem c6_exact_recovery_witness :
    least_squares_deconvolution (combinedSpectrum 1 2 [1, 0] [0, 1]) [1, 0] [0, 1] = (1, 2)
      ∧ calculate_r_squared (combinedSpectrum 1 2 [1, 0] [0, 1])
          (combinedSpectrum
            (least_squares_deconvolution (combinedSpectrum 1 2 [1, 0] [0, 1]) [1, 0] [0, 1]).1
            (least_squares_deconvolution (combinedSpectrum 1 2 [1, 0] [0, 1]) [1, 0] [0, 1]).2
            [1, 0] [0, 1]) = some 1 :=
  c6_exact_recovery [1, 0] [0, 1] 1 2 rfl (by norm_num) (by norm_num)
    (by norm_num [dot])
    (by norm_num [sumSquares, combinedSpectrum, listMean])

/-! DataFrame groundwork for the background-correction pipeline. -/

lemma isNum_false_numVals (c : ColData) (h : c.isNum = false) : c.numVals = [] := by
  cases c with
  | num vs => simp [ColData.isNum] at h
  | txt vs => rfl

lemma zipWith_sub_self_mem (l : List ℚ) : ∀ v ∈ List.zipWith (· - ·) l l, v = 0 := by
  induction l with
  | nil =>
    intro v hv
    simp at hv
  | cons x l ih =>
    intro v hv
    simp only [List.zipWith_cons_cons, List.mem_cons] at hv
    rcases hv with h | h
    · rw [h]
      ring
    · exact ih v h

lemma getD_zero_of_all_zero (l : List ℚ) (h : ∀ v ∈ l, v = 0) (i : ℕ) : l.getD i 0 = 0 := by
  rw [List.getD_eq_getElem?_getD]
  cases hg : l[i]? with
  | none => rfl
  | some v =>
    simp only [Option.getD_some]
    exact h v (List.getElem?_mem hg)

lemma getD_map_sub (l : List ℚ) (z : ℚ) (i : ℕ) (h : i < l.length) (d0 : ℚ) :
    (l.map (fun v => v - z)).getD i d0 = l.getD i 0 - z := by
  induction l generalizing i with
  | nil => simp at h
  | cons x l ih =>
    cases i with
    | zero => simp
    | succ i =>
      simp only [List.map_cons, List.getD_cons_succ]
      exact ih i (by simpa using h)

lemma zipWith_sub_getD (rv pv : List ℚ) (hlen : pv.length = rv.length) (i : ℕ) :
    (List.zipWith (· - ·) rv pv).getD i 0 = rv.getD i 0 - pv.getD i 0 := by
  induction rv generalizing pv i with
  | nil =>
    have hp : pv = [] := List.length_eq_zero.mp (by simpa using hlen)
    subst hp
    simp
  | cons r rv ih =>
    cases pv with
    | nil => simp at hlen
    | cons q pv =>
      cases i with
      | zero => simp
      | succ i =>
        simp only [List.zipWith_cons_cons, List.getD_cons_succ]
        exact ih pv (by simpa using hlen) i

lemma names_nodup_filter (l : List (String × ColData)) (q : String × ColData → Bool)
    (hnd : (l.map (·.1)).Nodup) : ((l.filter q).map (·.1)).Nodup :=
  hnd.sublist ((List.filter_sublist l).map (·.1))

lemma name_inj (l : List (String × ColData)) (hnd : (l.map (·.1)).Nodup)
    (c d : String × ColData) (hc : c ∈ l) (hd : d ∈ l) (h : c.1 = d.1) : c = d :=
  List.inj_on_of_nodup_map hnd hc hd h

lemma find?_name_unique (l : List (String × ColData)) (hnd : (l.map (·.1)).Nodup)
    (c : String × ColData) (hc : c ∈ l) :
    l.find? (fun d => d.1 == c.1) = some c := by
  induction l with
  | nil => simp at hc
  | cons d l ih =>
    rcases List.mem_cons.mp hc with rfl | hmem
    · rw [List.find?_cons_of_pos _ (by simp)]
    · have hnd2 : (l.map (·.1)).Nodup := (List.nodup_cons.mp hnd).2
      have hnotin : d.1 ∉ l.map (·.1) := (List.nodup_cons.mp hnd).1
      have hne : (d.1 == c.1) = false := by
        apply beq_eq_false_iff_ne.mpr
        intro heq
        exact hnotin (heq ▸ List.mem_map.mpr ⟨c, hmem, rfl⟩)
      rw [List.find?_cons_of_neg _ (by simp [hne]), ih hnd2 hmem]

lemma find?_map_name (l : List (String × ColData))
    (g : String × ColData → String × ColData) (hg : ∀ c, (g c).1 = c.1)
    (hnd : (l.map (·.1)).Nodup) (c : String × ColData) (hc : c ∈ l) :
    (l.map g).find? (fun d => d.1 == c.1) = some (g c) := by
  induction l with
  | nil => simp at hc
  | cons d l ih =>
    rcases List.mem_cons.mp hc with rfl | hmem
    · rw [List.map_cons, List.find?_cons_of_pos _ (by simp [hg])]
    · have hnd2 : (l.map (·.1)).Nodup := (List.nodup_cons.mp hnd).2
      have hnotin : d.1 ∉ l.map (·.1) := (List.nodup_cons.mp hnd).1
      have hne : d.1 ≠ c.1 := by
        intro heq
        exact hnotin (heq ▸ List.mem_map.mpr ⟨c, hmem, rfl⟩)
      rw [List.map_cons, List.find?_cons_of_neg _ (by simp [hg, hne]), ih hnd2 hmem]

lemma filterMap_eq_map_of_all_some (l : List α) (f : α → Option β) (g : α → β)
    (h : ∀ a ∈ l, f a = some (g a)) : l.filterMap f = l.map g := by
  induction l with
  | nil => rfl
  | cons x l ih =>
    rw [List.filterMap_cons, h x (List.mem_cons_self x l),
      ih (fun a ha => h a (List.mem_cons_of_mem x ha)), List.map_cons]

lemma blankCorr_cols (x plateNum : DF) (b : ℕ) :
    (subtractBlankRow (dfSubNum x plateNum) b).cols = x.cols.map (corrCol plateNum b) := by
  simp only [subtractBlankRow, dfSubNum, corrCol, List.map_map]
  rfl

/-- The find? step of the reindex in the Curve Fitting recombine: with
unique column labels, a numeric column of the raw frame is found as
its corrected version, a non-numeric column as itself. -/
lemma combined_find? (cols : List (String × ColData)) (plateNum : DF) (b : ℕ)
    (hnd : (cols.map (·.1)).Nodup) (c : String × ColData) (hc : c ∈ cols) :
    ((cols.filter (fun d => !d.2.isNum))
        ++ (cols.filter (fun d => d.2.isNum)).map (corrCol plateNum b)).find?
      (fun d => d.1 == c.1)
      = some (if c.2.isNum then corrCol plateNum b c else c) := by
  rw [List.find?_append]
  by_cases hnum : c.2.isNum
  · have hnone : (cols.filter (fun d => !d.2.isNum)).find? (fun d => d.1 == c.1) = none := by
      rw [List.find?_eq_none]
      intro d hd
      have hd2 := List.mem_filter.mp hd
      intro hbeq
      have heq : d.1 = c.1 := by simpa using hbeq
      have : d = c := name_inj cols hnd d c hd2.1 hc heq
      rw [this] at hd2
      rw [hnum] at hd2
      simp at hd2
    rw [hnone, Option.none_or]
    have hcin : c ∈ cols.filter (fun d => d.2.isNum) :=
      List.mem_filter.mpr ⟨hc, hnum⟩
    rw [find?_map_name (cols.filter (fun d => d.2.isNum)) (corrCol plateNum b)
      (fun d => rfl) (names_nodup_filter cols _ hnd) c hcin, if_pos hnum]
  · have hb : c.2.isNum = false := by simpa using hnum
    have hcin : c ∈ cols.filter (fun d => !d.2.isNum) :=
      List.mem_filter.mpr ⟨hc, by simp [hb]⟩
    rw [find?_name_unique _ (names_nodup_filter cols _ hnd) c hcin, if_neg hnum]
    rfl

/-- Structure of the Curve Fitting separate_subtract_and_recombine:
with unique column labels, the output is the input with every numeric
column replaced by its plate- and blank-corrected version, in the
original column order. -/
lemma ssr_cols (raw plate : DF) (b : ℕ) (hnodup : raw.names.Nodup) :
    (separate_subtract_and_recombine raw plate b).cols
      = raw.cols.map (fun c =>
          if c.2.isNum then corrCol (DF.mk (plate.cols.filter (fun d => d.2.isNum))) b c
          else c) := by
  have hblank := blankCorr_cols (DF.mk (raw.cols.filter (fun c => c.2.isNum)))
    (DF.mk (plate.cols.filter (fun c => c.2.isNum))) b
  simp only [separate_subtract_and_recombine, recombine_data, separate_columns]
  rw [hblank]
  rw [List.filterMap_map]
  apply filterMap_eq_map_of_all_some
  intro c hc
  exact combined_find? raw.cols (DF.mk (plate.cols.filter (fun c => c.2.isNum))) b hnodup c hc

/-- Structure of the Background Correction
separate_subtract_and_recombine: the output is the non-numeric columns
followed by the corrected numeric columns (blank row 0), with no
reindex to the original order. -/
lemma ssr_bc_cols (raw plate : DF) :
    (separate_subtract_and_recombine_bc raw plate).cols
      = raw.cols.filter (fun c => !c.2.isNum)
        ++ (raw.cols.filter (fun c => c.2.isNum)).map
            (corrCol (DF.mk (plate.cols.filter (fun d => d.2.isNum))) 0) := by
  have hblank := blankCorr_cols (DF.mk (raw.cols.filter (fun c => c.2.isNum)))
    (DF.mk (plate.cols.filter (fun c => c.2.isNum))) 0
  simp only [separate_subtract_and_recombine_bc, recombine_data_bc, subtract_background,
    subtract_blank_row, separate_columns]
  rw [hblank]

lemma find?_name_unique2 (l : List (String × ColData)) (hnd : (l.map (·.1)).Nodup)
    (nm : String) (cd : ColData) (hc : (nm, cd) ∈ l) :
    l.find? (fun d => d.1 == nm) = some (nm, cd) :=
  find?_name_unique l hnd (nm, cd) hc

lemma find?_map_name2 (l : List (String × ColData))
    (g : String × ColData → String × ColData) (hg : ∀ c, (g c).1 = c.1)
    (hnd : (l.map (·.1)).Nodup) (nm : String) (cd : ColData) (hc : (nm, cd) ∈ l) :
    (l.map g).find? (fun d => d.1 == nm) = some (g (nm, cd)) :=
  find?_map_name l g hg hnd (nm, cd) hc

lemma combined_find?2 (cols : List (String × ColData)) (plateNum : DF) (b : ℕ)
    (hnd : (cols.map (·.1)).Nodup) (nm : String) (cd : ColData) (hc : (nm, cd) ∈ cols) :
    ((cols.filter (fun d => !d.2.isNum))
        ++ (cols.filter (fun d => d.2.isNum)).map (corrCol plateNum b)).find?
      (fun d => d.1 == nm)
      = some (if cd.isNum then corrCol plateNum b (nm, cd) else (nm, cd)) :=
  combined_find? cols plateNum b hnd (nm, cd) hc

lemma colNumVals_all_zero (X : DF) (h : ∀ c ∈ X.cols, ∀ v ∈ c.2.numVals, v = 0)
    (n : String) (i : ℕ) : (X.colNumVals n).getD i 0 = 0 := by
  unfold DF.colNumVals
  cases hf : X.cols.find? (fun c => c.1 == n) with
  | none => simp
  | some c =>
    simp only [Option.map_some', Option.getD_some]
    exact getD_zero_of_all_zero _ (h c (List.mem_of_find?_eq_some hf)) i

lemma corrCol_self_zero (df : DF) (hnodup : df.names.Nodup) (b : ℕ)
    (c0 : String × ColData) (hc0m : c0 ∈ df.cols.filter (fun d => d.2.isNum)) :
    ∀ v ∈ (corrCol (DF.mk (df.cols.filter (fun d => d.2.isNum))) b c0).2.numVals, v = 0 := by
  have hfind : (df.cols.filter (fun d => d.2.isNum)).find? (fun d => d.1 == c0.1) = some c0 :=
    find?_name_unique _ (names_nodup_filter df.cols _ hnodup) c0 hc0m
  have hcv : (DF.mk (df.cols.filter (fun d => d.2.isNum))).colNumVals c0.1 = c0.2.numVals := by
    unfold DF.colNumVals
    rw [hfind]
    rfl
  intro v hv
  simp only [corrCol, ColData.numVals, hcv] at hv
  obtain ⟨wv, hwv, rfl⟩ := List.mem_map.mp hv
  rw [zipWith_sub_self_mem _ wv hwv,
    getD_zero_of_all_zero _ (zipWith_sub_self_mem _) b]
  ring

/-- All numeric cells of both self-corrected frames vanish. -/
lemma ssr_self_cols_zero (df : DF) (b : ℕ) (hnodup : df.names.Nodup) :
    (∀ c ∈ (separate_subtract_and_recombine df df b).cols, ∀ v ∈ c.2.numVals, v = 0)
      ∧ (∀ c ∈ (separate_subtract_and_recombine_bc df df).cols,
          ∀ v ∈ c.2.numVals, v = 0) := by
  constructor
  · rw [ssr_cols df df b hnodup]
    intro c hc
    obtain ⟨c0, hc0, rfl⟩ := List.mem_map.mp hc
    by_cases hnum : c0.2.isNum = true
    · rw [if_pos hnum]
      exact corrCol_self_zero df hnodup b c0 (List.mem_filter.mpr ⟨hc0, hnum⟩)
    · rw [if_neg hnum]
      rw [isNum_false_numVals c0.2 (by simpa using hnum)]
      intro v hv
      simp at hv
  · rw [ssr_bc_cols df df]
    intro c hc
    rcases List.mem_append.mp hc with hmem | hmem
    · have hb := (List.mem_filter.mp hmem).2
      rw [isNum_false_numVals c.2 (by simpa using hb)]
      intro v hv
      simp at hv
    · obtain ⟨c0, hc0, rfl⟩ := List.mem_map.mp hmem
      exact corrCol_self_zero df hnodup 0 c0 hc0

/-- C3: for every sample table, running background correction with the
table itself as the plate-background table yields a result whose
numeric cells are all zero - every numeric cell read from either
implementation of separate_subtract_and_recombine is 0. -/
theorem c3_self_background_all_zero (df : DF) (b : ℕ) (hnodup : df.names.Nodup)
    (n : String) (i : ℕ) :
    ((separate_subtract_and_recombine df df b).colNumVals n).getD i 0 = 0
      ∧ ((separate_subtract_and_recombine_bc df df).colNumVals n).getD i 0 = 0 :=
  ⟨colNumVals_all_zero _ (ssr_self_cols_zero df b hnodup).1 n i,
   colNumVals_all_zero _ (ssr_self_cols_zero df b hnodup).2 n i⟩

theorem c3_self_background_all_zero_witness :
    ((separate_subtract_and_recombine
        (DF.mk [("Row/Col", ColData.txt ["A1"]), ("220", ColData.num [5])])
        (DF.mk [("Row/Col", ColData.txt ["A1"]), ("220", ColData.num [5])])
        0).colNumVals "220").getD 0 0 = 0
      ∧ ((separate_subtract_and_recombine_bc
          (DF.mk [("Row/Col", ColData.txt ["A1"]), ("220", ColData.num [5])])
          (DF.mk [("Row/Col", ColData.txt ["A1"]), ("220", ColData.num [5])])).colNumVals
            "220").getD 0 0 = 0 :=
  c3_self_background_all_zero
    (DF.mk [("Row/Col", ColData.txt ["A1"]), ("220", ColData.num [5])]) 0
    (by decide) "220" 0

lemma g_fst (P : DF) (b : ℕ) :
    ∀ c : String × ColData, ((if c.2.isNum then corrCol P b c else c) : String × ColData).1
      = c.1 := by
  intro c
  by_cases h : c.2.isNum = true
  · rw [if_pos h]
    rfl
  · rw [if_neg h]

/-- The numeric output column named n of the Curve Fitting correction,
written in terms of the raw and plate columns of that name. -/
lemma ssr_colNumVals (raw plate : DF) (b : ℕ) (n : String) (rv pv : List ℚ)
    (hnodupR : raw.names.Nodup) (hnodupP : plate.names.Nodup)
    (hr : (n, ColData.num rv) ∈ raw.cols) (hp : (n, ColData.num pv) ∈ plate.cols) :
    (separate_subtract_and_recombine raw plate b).colNumVals n
      = (List.zipWith (· - ·) rv pv).map
          (fun v => v - (List.zipWith (· - ·) rv pv).getD b 0) := by
  have hPn : (DF.mk (plate.cols.filter (fun d => d.2.isNum))).colNumVals n = pv := by
    unfold DF.colNumVals
    rw [find?_name_unique2 _ (names_nodup_filter plate.cols _ hnodupP) n (ColData.num pv)
      (List.mem_filter.mpr ⟨hp, rfl⟩)]
    rfl
  unfold DF.colNumVals
  rw [ssr_cols raw plate b hnodupR]
  rw [find?_map_name2 raw.cols _ (g_fst (DF.mk (plate.cols.filter (fun d => d.2.isNum))) b)
    hnodupR n (ColData.num rv) hr]
  show (corrCol (DF.mk (plate.cols.filter (fun d => d.2.isNum))) b (n, ColData.num rv)).2.numVals
      = (List.zipWith (· - ·) rv pv).map
          (fun v => v - (List.zipWith (· - ·) rv pv).getD b 0)
  simp only [corrCol, ColData.numVals]
  rw [hPn]

/-- The numeric output column named n of the Background Correction
version (blank row 0, no reindex). -/
lemma ssr_bc_colNumVals (raw plate : DF) (n : String) (rv pv : List ℚ)
    (hnodupR : raw.names.Nodup) (hnodupP : plate.names.Nodup)
    (hr : (n, ColData.num rv) ∈ raw.cols) (hp : (n, ColData.num pv) ∈ plate.cols) :
    (separate_subtract_and_recombine_bc raw plate).colNumVals n
      = (List.zipWith (· - ·) rv pv).map
          (fun v => v - (List.zipWith (· - ·) rv pv).getD 0 0) := by
  have hPn : (DF.mk (plate.cols.filter (fun d => d.2.isNum))).colNumVals n = pv := by
    unfold DF.colNumVals
    rw [find?_name_unique2 _ (names_nodup_filter plate.cols _ hnodupP) n (ColData.num pv)
      (List.mem_filter.mpr ⟨hp, rfl⟩)]
    rfl
  unfold DF.colNumVals
  rw [ssr_bc_cols raw plate]
  have hcomb := combined_find?2 raw.cols (DF.mk (plate.cols.filter (fun d => d.2.isNum))) 0
    hnodupR n (ColData.num rv) hr
  rw [if_pos (show (ColData.num rv).isNum = true from rfl)] at hcomb
  rw [hcomb]
  show (corrCol (DF.mk (plate.cols.filter (fun d => d.2.isNum))) 0 (n, ColData.num rv)).2.numVals
      = (List.zipWith (· - ·) rv pv).map
          (fun v => v - (List.zipWith (· - ·) rv pv).getD 0 0)
  simp only [corrCol, ColData.numVals]
  rw [hPn]

/-- C4: with matching numeric columns, each numeric output cell of the
background correction equals raw - background minus the corrected
blank-row value, and the cell at the blank index itself is zero; the
Curve Fitting version takes the blank index as a parameter and the
Background Correction version uses row 0. -/
theorem c4_corrected_cell_formula (raw plate : DF) (b : ℕ) (n : String) (rv pv : List ℚ)
    (hnodupR : raw.names.Nodup) (hnodupP : plate.names.Nodup)
    (hr : (n, ColData.num rv) ∈ raw.cols) (hp : (n, ColData.num pv) ∈ plate.cols)
    (hlen : pv.length = rv.length) :
    (∀ i < rv.length,
        ((separate_subtract_and_recombine raw plate b).colNumVals n).getD i 0
          = (rv.getD i 0 - pv.getD i 0) - (rv.getD b 0 - pv.getD b 0))
      ∧ (b < rv.length →
          ((separate_subtract_and_recombine raw plate b).colNumVals n).getD b 0 = 0)
      ∧ (∀ i < rv.length,
          ((separate_subtract_and_recombine_bc raw plate).colNumVals n).getD i 0
            = (rv.getD i 0 - pv.getD i 0) - (rv.getD 0 0 - pv.getD 0 0))
      ∧ (0 < rv.length →
          ((separate_subtract_and_recombine_bc raw plate).colNumVals n).getD 0 0 = 0) := by
  have hw : (List.zipWith (· - ·) rv pv).length = rv.length := by
    rw [List.length_zipWith, hlen, min_self]
  have hcf := ssr_colNumVals raw plate b n rv pv hnodupR hnodupP hr hp
  have hbc := ssr_bc_colNumVals raw plate n rv pv hnodupR hnodupP hr hp
  have hcell : ∀ i < rv.length, ∀ j : ℕ,
      ((List.zipWith (· - ·) rv pv).map
          (fun v => v - (List.zipWith (· - ·) rv pv).getD j 0)).getD i 0
        = (rv.getD i 0 - pv.getD i 0) - (rv.getD j 0 - pv.getD j 0) := by
    intro i hi j
    rw [getD_map_sub _ _ i (by rw [hw]; exact hi), zipWith_sub_getD rv pv hlen i,
      zipWith_sub_getD rv pv hlen j]
  refine ⟨?_, ?_, ?_, ?_⟩
  · intro i hi
    rw [hcf]
    exact hcell i hi b
  · intro hb
    rw [hcf, hcell b hb b]
    ring
  · intro i hi
    rw [hbc]
    exact hcell i hi 0
  · intro h0
    rw [hbc, hcell 0 h0 0]
    ring

theorem c4_corrected_cell_formula_witness :
    ((separate_subtract_and_recombine
        (DF.mk [("id", ColData.txt ["A1", "B1"]), ("w", ColData.num [10, 7])])
        (DF.mk [("w", ColData.num [1, 2])]) 1).colNumVals "w").getD 0 0
      = (((10 : ℚ) - 1) - ((7 : ℚ) - 2)) :=
  by
    have h := (c4_corrected_cell_formula
      (DF.mk [("id", ColData.txt ["A1", "B1"]), ("w", ColData.num [10, 7])])
      (DF.mk [("w", ColData.num [1, 2])]) 1 "w" [10, 7] [1, 2]
      (by decide) (by decide) (by simp) (by simp) rfl).1 0 (by norm_num)
    rw [h]
    norm_num

/-- C5 fails as stated: the Background Correction recombine_data does
not restore the original column order (its reindex is commented out),
so a two-row table whose numeric column precedes its identifier column
comes back with the columns swapped (the correction itself runs
normally on this input: two rows, matching labels, blank row 0 in
range). -/
theorem c5_counterexample :
    (separate_subtract_and_recombine_bc
        (DF.mk [("220", ColData.num [1, 2]), ("Row/Col", ColData.txt ["A1", "B1"])])
        (DF.mk [("220", ColData.num [1, 1])])).names
      ≠ (DF.mk [("220", ColData.num [1, 2]), ("Row/Col", ColData.txt ["A1", "B1"])]).names := by
  decide

lemma filter_nonnum_map_corr (l : List (String × ColData)) (P : DF) (b : ℕ) :
    (l.map (fun c => if c.2.isNum then corrCol P b c else c)).filter (fun c => !c.2.isNum)
      = l.filter (fun c => !c.2.isNum) := by
  induction l with
  | nil => rfl
  | cons c l ih =>
    by_cases h : c.2.isNum = true
    · rw [List.map_cons, if_pos h]
      rw [List.filter_cons_of_neg (by simp [corrCol, ColData.isNum]),
        List.filter_cons_of_neg (by simp [h]), ih]
    · rw [List.map_cons, if_neg h]
      rw [List.filter_cons_of_pos (by simp [Bool.not_eq_true] at h; simp [h]),
        List.filter_cons_of_pos (by simp [Bool.not_eq_true] at h; simp [h]), ih]

/-- C5 amended: both implementations leave every non-numeric column
unchanged; the Curve Fitting implementation also preserves the
original column order, while the Background Correction implementation
returns all non-numeric columns first followed by the numeric columns
(which coincides with the original order only when the input already
has that shape). -/
theorem c5_identifier_columns_preserved (raw plate : DF) (b : ℕ)
    (hnodup : raw.names.Nodup) :
    (separate_subtract_and_recombine raw plate b).names = raw.names
      ∧ (separate_subtract_and_recombine raw plate b).cols.filter (fun c => !c.2.isNum)
          = raw.cols.filter (fun c => !c.2.isNum)
      ∧ (separate_subtract_and_recombine_bc raw plate).cols.filter (fun c => !c.2.isNum)
          = raw.cols.filter (fun c => !c.2.isNum)
      ∧ (separate_subtract_and_recombine_bc raw plate).names
          = (raw.cols.filter (fun c => !c.2.isNum)).map (·.1)
            ++ (raw.cols.filter (fun c => c.2.isNum)).map (·.1) := by
  refine ⟨?_, ?_, ?_, ?_⟩
  · show (separate_subtract_and_recombine raw plate b).cols.map (·.1) = raw.cols.map (·.1)
    rw [ssr_cols raw plate b hnodup, List.map_map]
    exact List.map_congr_left (fun c _ =>
      g_fst (DF.mk (plate.cols.filter (fun d => d.2.isNum))) b c)
  · rw [ssr_cols raw plate b hnodup]
    exact filter_nonnum_map_corr raw.cols _ b
  · rw [ssr_bc_cols raw plate, List.filter_append]
    have h1 : (raw.cols.filter (fun c => !c.2.isNum)).filter (fun c => !c.2.isNum)
        = raw.cols.filter (fun c => !c.2.isNum) :=
      List.filter_eq_self.mpr (fun a ha => (List.mem_filter.mp ha).2)
    have h2 : ((raw.cols.filter (fun c => c.2.isNum)).map
        (corrCol (DF.mk (plate.cols.filter (fun d => d.2.isNum))) 0)).filter
          (fun c => !c.2.isNum) = [] := by
      rw [List.filter_eq_nil_iff]
      intro a ha
      obtain ⟨c, hc, rfl⟩ := List.mem_map.mp ha
      simp [corrCol, ColData.isNum]
    rw [h1, h2, List.append_nil]
  · show (separate_subtract_and_recombine_bc raw plate).cols.map (·.1) = _
    rw [ssr_bc_cols raw plate, List.map_append, List.map_map]
    rfl

theorem c5_identifier_columns_preserved_witness :
    (separate_subtract_and_recombine
        (DF.mk [("Row/Col", ColData.txt ["A1"]), ("220", ColData.num [3])])
        (DF.mk [("220", ColData.num [1])]) 0).names
      = (DF.mk [("Row/Col", ColData.txt ["A1"]), ("220", ColData.num [3])]).names :=
  (c5_identifier_columns_preserved
    (DF.mk [("Row/Col", ColData.txt ["A1"]), ("220", ColData.num [3])])
    (DF.mk [("220", ColData.num [1])]) 0 (by decide)).1

lemma range_map_getD (n : ℕ) (f : ℕ → ℚ) (i : ℕ) (d : ℚ) (hi : i < n) :
    (((List.range n).map f).getD i d) = f i := by
  rw [List.getD_eq_getElem?_getD, List.getElem?_map, List.getElem?_range hi]
  rfl

/-- C7: process_samples pairs metadata row i with spectrum row i
positionally; the actual concentration for the first component is
volumes row i, column 0, times 0.025 / 300, for the second component
volumes row i, column 1, times 0.25 / 300, and the predicted values
are the deconvolution coefficients of spectrum row i restricted to the
configured wavelength range. -/
theorem c7_process_samples_pairing (data_df : DF) (volumes : List (List ℚ))
    (styrene polystyrene : List ℚ) (range_start range_end : ℕ) (i : ℕ)
    (hi : i < data_df.nrows) :
    ((process_samples data_df volumes styrene polystyrene range_start range_end).1).getD i 0
        = (fit_spectra (pySlice (data_df.numericRow i) range_start range_end)
            styrene polystyrene).1
      ∧ ((process_samples data_df volumes styrene polystyrene range_start
            range_end).2.1).getD i 0
        = (volumes.getD i []).getD 0 0 * 0.025 / 300
      ∧ ((process_samples data_df volumes styrene polystyrene range_start
            range_end).2.2.1).getD i 0
        = (fit_spectra (pySlice (data_df.numericRow i) range_start range_end)
            styrene polystyrene).2
      ∧ ((process_samples data_df volumes styrene polystyrene range_start
            range_end).2.2.2).getD i 0
        = (volumes.getD i []).getD 1 0 * 0.25 / 300 :=
  ⟨range_map_getD data_df.nrows _ i 0 hi, range_map_getD data_df.nrows _ i 0 hi,
   range_map_getD data_df.nrows _ i 0 hi, range_map_getD data_df.nrows _ i 0 hi⟩

theorem c7_process_samples_pairing_witness :
    ((process_samples (DF.mk [("Row/Col", ColData.txt ["A1"]), ("220", ColData.num [2])])
        [[30, 60]] [1] [1] 0 1).2.1).getD 0 0 = ((30 : ℚ) * 0.025 / 300)
      ∧ ((process_samples (DF.mk [("Row/Col", ColData.txt ["A1"]), ("220", ColData.num [2])])
          [[30, 60]] [1] [1] 0 1).2.2.2).getD 0 0 = ((60 : ℚ) * 0.25 / 300) := by
  have h := c7_process_samples_pairing
    (DF.mk [("Row/Col", ColData.txt ["A1"]), ("220", ColData.num [2])])
    [[30, 60]] [1] [1] 0 1 0 (by decide)
  exact ⟨h.2.1, h.2.2.2⟩

/-- C8 fails as stated: load_data_new of the Background Correction
file has no error handling at all - a failed parse propagates out as
an exception instead of producing an empty result. -/
theorem c8_counterexample :
    load_data_new_bc (Except.error "FileNotFoundError")
        = Except.error "FileNotFoundError"
      ∧ load_data_new_bc (Except.error "FileNotFoundError") ≠ Except.ok (DF.mk []) := by
  refine ⟨rfl, ?_⟩
  intro h
  exact Except.noConfusion h

/-- C8 amended: the two loaders of the Curve Fitting file catch every
parse error and return an empty DataFrame; the Background Correction
load_data catches every error but returns None rather than an empty
frame; the Background Correction load_data_new performs no error
handling and re-raises the parse error. -/
theorem c8_load_error_handling (e : String) (s t : ℤ) :
    load_data (Except.error e) = DF.mk []
      ∧ load_data_new (Except.error e) s t = DF.mk []
      ∧ load_data_bc (Except.error e) = none
      ∧ load_data_new_bc (Except.error e) = Except.error e :=
  ⟨rfl, rfl, rfl, rfl⟩

/-- C10: the frame main writes to CSV is exactly the plate-corrected
difference data minus plate over the columns from position 1 on: the
blank-row subtraction computed in main is bound to nothing and has no
effect on the saved output. -/
theorem c10_main_saves_only_plate_corrected (data plate : DF) (n : String)
    (dv pv : List ℚ) (hnodup : ((data.cols.drop 1).map (·.1)).Nodup)
    (hd : (n, ColData.num dv) ∈ data.cols.drop 1)
    (hp : (DF.mk (plate.cols.drop 1)).colNumVals n = pv) :
    (main_saved data plate).colNumVals n = List.zipWith (· - ·) dv pv := by
  have hstep : (main_saved data plate).colNumVals n
      = ((((dfSubNum (DF.mk (data.cols.drop 1)) (DF.mk (plate.cols.drop 1))).cols.find?
          (fun c => c.1 == n)).map (fun c => c.2.numVals)).getD []) := rfl
  rw [hstep]
  have hcols : (dfSubNum (DF.mk (data.cols.drop 1)) (DF.mk (plate.cols.drop 1))).cols
      = (data.cols.drop 1).map (fun c => (c.1, ColData.num
          (List.zipWith (· - ·) c.2.numVals
            ((DF.mk (plate.cols.drop 1)).colNumVals c.1)))) := rfl
  rw [hcols]
  rw [find?_map_name2 (data.cols.drop 1)
    (fun c => (c.1, ColData.num (List.zipWith (· - ·) c.2.numVals
      ((DF.mk (plate.cols.drop 1)).colNumVals c.1))))
    (fun c => rfl) hnodup n (ColData.num dv) hd]
  show List.zipWith (· - ·) (ColData.num dv).numVals
      ((DF.mk (plate.cols.drop 1)).colNumVals n) = List.zipWith (· - ·) dv pv
  rw [hp]
  rfl

theorem c10_main_saves_only_plate_corrected_witness :
    (main_saved
        (DF.mk [("Row/Col", ColData.txt []),
          ("220", ColData.num [1, 1, 1, 1, 1, 1, 1, 1, 1, 1, 1, 9])])
        (DF.mk [("Row/Col", ColData.txt []),
          ("220", ColData.num [0, 0, 0, 0, 0, 0, 0, 0, 0, 0, 0, 0])])).colNumVals "220"
      = List.zipWith (· - ·) [1, 1, 1, 1, 1, 1, 1, 1, 1, 1, 1, 9]
          [0, 0, 0, 0, 0, 0, 0, 0, 0, 0, 0, 0] :=
  c10_main_saves_only_plate_corrected
    (DF.mk [("Row/Col", ColData.txt []),
      ("220", ColData.num [1, 1, 1, 1, 1, 1, 1, 1, 1, 1, 1, 9])])
    (DF.mk [("Row/Col", ColData.txt []),
      ("220", ColData.num [0, 0, 0, 0, 0, 0, 0, 0, 0, 0, 0, 0])])
    "220" [1, 1, 1, 1, 1, 1, 1, 1, 1, 1, 1, 9] [0, 0, 0, 0, 0, 0, 0, 0, 0, 0, 0, 0]
    (by decide) (by simp) rfl

end OTUV
